import Mathlib

/-!
Shallow embedding of `coffea/ml_tools/triton_wrapper.py` (class
`triton_wrapper`): batch-size resolution (the `batch_size` property), request
validation (`validate_numpy_input`) and the batched inference dispatch loop
(`numpy_call`), together with the numpy primitives the code relies on
(`numpy.resize`, basic slicing, `astype`, `numpy.concatenate`, `numpy.zeros`).

Arrays are modelled as a dtype tag, a shape and the row-major flattened data.
Raised Python exceptions are modelled as `none` / `Except.error`; emitted
`warnings.warn` messages are modelled as explicitly returned string lists or
boolean flags.
-/

namespace TritonWrapper

/-- A dense numpy array: dtype name, shape, and row-major flattened data. -/
structure NpArray where
  dtype : String
  shape : List Nat
  data : List Int
deriving DecidableEq, Inhabited

/-- Number of scalar entries in one leading-axis row (`prod(shape[1:])`). -/
def rowSize (a : NpArray) : Nat := a.shape.tail.prod

/-- Leading dimension `arr.shape[0]` (0 for a rank-0 array). -/
def leadDim (a : NpArray) : Nat := a.shape.headD 0

/-- Row `j` along the leading axis, as flattened data. -/
def getRow (a : NpArray) (j : Nat) : List Int :=
  (a.data.drop (j * rowSize a)).take (rowSize a)

/-- Basic slicing `a[start:stop]` on the leading axis, with Python's clamping
of out-of-range bounds. -/
def sliceRows (a : NpArray) (start stop : Nat) : NpArray :=
  let n := leadDim a
  let lo := min start n
  let hi := min stop n
  { dtype := a.dtype
    shape := (hi - lo) :: a.shape.tail
    data := (a.data.drop (lo * rowSize a)).take ((hi - lo) * rowSize a) }

/-- `numpy.resize(a, sh)`: a new array of shape `sh` filled with the
cyclically repeated flattened data of `a`; a zero-sized source is padded with
zeros (numpy's documented behaviour). -/
def npResize (a : NpArray) (sh : List Nat) : NpArray :=
  { dtype := a.dtype
    shape := sh
    data :=
      if a.data.length = 0 then List.replicate sh.prod 0
      else (List.range sh.prod).map fun i => a.data.getD (i % a.data.length) 0 }

/-- `a.astype(dt)`: a fresh array with the converted dtype tag (the numeric
values are carried over; representation change is not observed by the code). -/
def astype (a : NpArray) (dt : String) : NpArray := { a with dtype := dt }

/-- `numpy.concatenate((a, b), axis=0)`. -/
def npConcat (a b : NpArray) : NpArray :=
  { dtype := a.dtype
    shape := (leadDim a + leadDim b) :: a.shape.tail
    data := a.data ++ b.data }

/-- `numpy.zeros(shape=sh)` for a shape that may contain declared (possibly
wildcard, i.e. negative) dimensions; numpy raises `ValueError` on any
negative dimension, modelled as `none`. -/
def npZeros (sh : List Int) : Option NpArray :=
  if sh.all (fun d => 0 ≤ d) then
    some { dtype := "float64", shape := sh.map Int.toNat
           data := List.replicate (sh.map Int.toNat).prod 0 }
  else none

/-- `tritonclient.utils.triton_to_np_dtype`, with numpy dtypes rendered by
name ("none" models the `None` returned for an unknown datatype string). -/
def tritonToNp (dt : String) : String :=
  match dt with
  | "BOOL" => "bool"
  | "INT8" => "int8"
  | "INT16" => "int16"
  | "INT32" => "int32"
  | "INT64" => "int64"
  | "UINT8" => "uint8"
  | "UINT16" => "uint16"
  | "UINT32" => "uint32"
  | "UINT64" => "uint64"
  | "FP16" => "float16"
  | "FP32" => "float32"
  | "FP64" => "float64"
  | "BYTES" => "object"
  | _ => "none"

/-- One entry of `model_inputs` (built by `_create_model_inputs`): declared
shape (a negative entry is a wildcard) and declared triton datatype. -/
structure InSpec where
  shape : List Int
  datatype : String
deriving DecidableEq, Inhabited

/-- One entry of `model_outputs` (built by `_create_model_outputs`). -/
structure OutSpec where
  shape : List Int
deriving DecidableEq, Inhabited

/-- Validation failures of `validate_numpy_input`; each constructor mirrors
one of the `ValueError` messages raised there (the Python code distinguishes
the cases only by message text; the payloads carry the data interpolated into
each message). -/
inductive VError where
  | unknownInput (name : String) (defined : List String)
  | rankMismatch (name : String) (got expected : Nat)
  | shapeMismatch (name : String) (got : List Nat) (expected : List Int)
  | missingInput (name : String)
  | unknownOutput (name : String) (defined : List String)
deriving DecidableEq

/-- `all(numpy.where(mshape > 0, ishape == mshape, True))` from line 218:
every positive (fixed) declared dimension must match exactly, wildcards
accept anything. Evaluated after the rank check, so on equal-length lists. -/
def shapeOkB (spec : InSpec) (a : NpArray) : Bool :=
  (List.zipWith (fun (m : Int) (i : Nat) => if 0 < m then ((i : Int) == m) else true)
    spec.shape a.shape).all id

/-- The dtype-mismatch warning text of lines 231-235. -/
def dtypeWarn (iname itype mtype : String) : String :=
  "Input [" ++ iname ++ "] got array of type [" ++ itype ++ "] (Expected [" ++
    mtype ++ "]). Automatic conversion will be performed using numpy.array.astype."

/-- The per-input loop of `validate_numpy_input` (lines 203-235): for each
provided input, in request order, check the name is known, the rank matches,
the fixed dimensions match; a dtype mismatch only appends a warning. -/
def checkInputs (minputs : List (String × InSpec)) :
    List (String × NpArray) → List String → Except VError (List String)
  | [], ws => .ok ws
  | (iname, iarr) :: rest, ws =>
    match minputs.lookup iname with
    | none => .error (.unknownInput iname (minputs.map Prod.fst))
    | some spec =>
      if iarr.shape.length ≠ spec.shape.length then
        .error (.rankMismatch iname iarr.shape.length spec.shape.length)
      else if ! shapeOkB spec iarr then
        .error (.shapeMismatch iname iarr.shape spec.shape)
      else
        checkInputs minputs rest
          (ws ++ if iarr.dtype ≠ tritonToNp spec.datatype then
              [dtypeWarn iname iarr.dtype (tritonToNp spec.datatype)] else [])

/-- The missing-input loop of lines 237-240. -/
def checkMissing (input_dict : List (String × NpArray)) :
    List (String × InSpec) → Except VError Unit
  | [] => .ok ()
  | (mname, _) :: rest =>
    if (input_dict.lookup mname).isSome then checkMissing input_dict rest
    else .error (.missingInput mname)

/-- The requested-output loop of lines 242-247. -/
def checkOutputs (mouts : List (String × OutSpec)) :
    List String → Except VError Unit
  | [] => .ok ()
  | o :: rest =>
    if (mouts.lookup o).isSome then checkOutputs mouts rest
    else .error (.unknownOutput o (mouts.map Prod.fst))

/-- `validate_numpy_input` (lines 175-247): the first raised `ValueError` (if
any) as `Except.error`, the emitted dtype warnings (in emission order)
otherwise. -/
def validate (minputs : List (String × InSpec)) (mouts : List (String × OutSpec))
    (output_list : List String) (input_dict : List (String × NpArray)) :
    Except VError (List String) := do
  let ws ← checkInputs minputs input_dict []
  let _ ← checkMissing input_dict minputs
  let _ ← checkOutputs mouts output_list
  .ok ws

/-- The server-reported model configuration (`get_model_config(...)["config"]`)
restricted to the fields `batch_size` reads: `none` models an absent key. -/
structure ModelConfig where
  dynamic_batching : Option (List Int)
  max_batch_size : Option Int
deriving DecidableEq

/-- `triton_wrapper.batch_size_fallback` (line 57). -/
def batch_size_fallback : Int := 10

/-- The `batch_size` property (lines 145-169) as a pure step: from the stored
`_batch_size` field and the server config (fetched only when consulted),
return `(resolved value, fallback warning emitted?, config consulted?)`.
The resolved value is also the new stored `_batch_size` (the assignments on
lines 157, 161 and 167). `none` models the `IndexError` of
`preferred_batch_size[0]` on an empty list. -/
def resolveBatchSize (b : Int) (cfg : ModelConfig) : Option (Int × Bool × Bool) :=
  if b < 0 then
    match cfg.dynamic_batching with
    | some pref => pref.head?.map fun h => (h, false, true)
    | none =>
      match cfg.max_batch_size with
      | some m => some (m, false, true)
      | none => some (batch_size_fallback, true, true)
  else some (b, false, false)

/-- Option-valued map in list order; `none` models the first raised exception
(a `KeyError` lookup failure or a numpy error) aborting the whole call. -/
def mapOpt (f : α → Option β) : List α → Option (List β)
  | [] => some []
  | a :: l =>
    match f a with
    | none => none
    | some b => (mapOpt f l).map fun r => b :: r

/-- Iteration core of Python `range`: the fuel (first `Nat` argument) only
enforces structural termination and is irrelevant once it is at least
`stop - start` (the iteration count is bounded by that for `step ≥ 1`). -/
def pyRangeAux (step : Nat) : Nat → Nat → Nat → List Nat
  | 0, _, _ => []
  | fuel + 1, start, stop =>
    if stop ≤ start then [] else start :: pyRangeAux step fuel (start + step) stop

/-- Python `range(start, stop, step)` for nonnegative arguments; the `step = 0`
case (where Python raises `ValueError`) is guarded by the caller. -/
def pyRange (start stop step : Nat) : List Nat :=
  if step = 0 then [] else pyRangeAux step (stop - start) start stop

/-- `_get_infer_shape` (lines 275-280): wildcard (negative) declared dims are
replaced by the actual array dims, then the leading dim is forced to the
batch size. -/
def inferShape (B : Nat) (spec : InSpec) (a : NpArray) : List Int :=
  let merged := List.zipWith (fun (m : Int) (i : Nat) => if m < 0 then (i : Int) else m)
    spec.shape a.shape
  match merged with
  | [] => []
  | _ :: t => (B : Int) :: t

/-- Lines 300-311 for one input array at one window: slice the rows
`[start, stop)`, `numpy.resize` the copy up to a full `B`-row batch, and cast
to the declared dtype. `none` models the `IndexError` of `shape[0] = ...` on
a rank-0 array. -/
def sendArray (B : Nat) (spec : InSpec) (a : NpArray) (start stop : Nat) :
    Option NpArray :=
  match a.shape with
  | [] => none
  | _ :: t =>
    some (astype (npResize (sliceRows a start stop) (B :: t)) (tritonToNp spec.datatype))

/-- One `InferInput` as sent for one window (after `set_data_from_numpy`). -/
structure SentInput where
  name : String
  declShape : List Int
  datatype : String
  data : NpArray
deriving DecidableEq

/-- The request content of one `client.infer` round trip (lines 313-319). -/
structure InferQuery where
  model : String
  version : String
  inputs : List SentInput
  outputs : List String
deriving DecidableEq

/-- The batch sent for one window: one `SentInput` per model input, in
`model_inputs` order (the `enumerate(self.model_inputs.keys())` loop). -/
def sentInputs (minputs : List (String × InSpec)) (input_dict : List (String × NpArray))
    (B start stop : Nat) : Option (List SentInput) :=
  mapOpt (fun p =>
    match input_dict.lookup p.1 with
    | none => none
    | some a =>
      (sendArray B p.2 a start stop).map fun d =>
        { name := p.1, declShape := inferShape B p.2 a
          datatype := p.2.datatype, data := d })
    minputs

/-- A transport client: maps a global round-trip index and a query to the
per-output response arrays (`request.as_numpy`). -/
def Client : Type := Nat → InferQuery → (String → NpArray)

/-- The dispatch loop of `numpy_call` (lines 295-328) over the remaining
windows. Threads the round-trip counter, the accumulated per-output arrays
(`none` mirrors `output = None` before the first round trip; kept in
`output_list` order) and the log of issued queries. Note the asymmetry of
lines 320-328: the first round trip's response is sliced to
`[start_idx:stop_idx]`, later responses are concatenated whole. -/
def runWindows (client : Client) (model version : String)
    (minputs : List (String × InSpec)) (outs : List String)
    (input_dict : List (String × NpArray)) (B : Nat) :
    List (Nat × Nat) → Nat → Option (List NpArray) → List InferQuery →
    Option (Option (List NpArray) × List InferQuery)
  | [], _, acc, log => some (acc, log)
  | (start, stop) :: rest, n, acc, log =>
    match sentInputs minputs input_dict B start stop with
    | none => none
    | some sent =>
      let q : InferQuery := { model := model, version := version
                              inputs := sent, outputs := outs }
      let resp := client n q
      let acc' : List NpArray :=
        match acc with
        | none => outs.map fun o => sliceRows (resp o) start stop
        | some prev => prev.zipWith npConcat (outs.map resp)
      runWindows client model version minputs outs input_dict B rest (n + 1)
        (some acc') (log ++ [q])

/-- The window plan of lines 297-298: `start_idx` drawn from
`range(0, orig_len, batch_size)`, `stop_idx = min(start_idx + batch_size,
orig_len)`. -/
def planWindows (L B : Nat) : List (Nat × Nat) :=
  (pyRange 0 L B).map fun s => (s, min (s + B) L)

/-- `numpy_call` (lines 249-338), started at round-trip counter `n₀`. Returns
the result mapping in `output_list` order together with the queries issued;
`none` models a raised exception (empty `input_dict`, a model input missing
from `input_dict` during the `infer_inputs` construction of lines 282-285, a
rank-0 first array at line 296, `batch_size == 0` at line 297, or
`numpy.zeros` on a negative declared dimension at line 334). -/
def numpy_call (client : Client) (model version : String)
    (minputs : List (String × InSpec)) (mouts : List (String × OutSpec))
    (output_list : List String) (input_dict : List (String × NpArray))
    (B : Nat) (n₀ : Nat) : Option (List (String × NpArray) × List InferQuery) :=
  match mapOpt (fun p => (input_dict.lookup p.1).map fun a => inferShape B p.2 a)
      minputs with
  | none => none
  | some _ =>
    match input_dict with
    | [] => none
    | (_, first) :: _ =>
      match first.shape with
      | [] => none
      | L :: _ =>
        if B = 0 then none
        else
          match runWindows client model version minputs output_list input_dict B
              (planWindows L B) n₀ none [] with
          | none => none
          | some (none, log) =>
            (mapOpt (fun o => (mouts.lookup o).bind fun spec =>
                npZeros ((0 : Int) :: spec.shape.tail)) output_list).map
              fun zs => (output_list.zip zs, log)
          | some (some acc, log) =>
            some (output_list.zip (acc.map fun a => sliceRows a 0 L), log)

/-! ### Heap-level model of the per-window input processing

For the frame property (no mutation of the caller's arrays) the array
operations of lines 300-311 are replayed against an explicit heap: basic
slicing creates a view (no allocation, no write), `numpy.resize` allocates a
fresh array, `.astype` allocates another. No operation writes to an existing
heap entry. -/

/-- A heap of numpy arrays; an array id is its index, allocation appends. -/
abbrev Store := List NpArray

/-- Read the array stored under id `i`. -/
def readArr (st : Store) (i : Nat) : NpArray := st.getD i default

/-- Lines 300-311 for one input at one window, heap-level. Returns the grown
store and the id of the fresh array handed to `set_data_from_numpy`. -/
def sendArrayStore (B : Nat) (spec : InSpec) (st : Store) (i start stop : Nat) :
    Option (Store × Nat) :=
  match (readArr st i).shape with
  | [] => none
  | _ :: t =>
    let resized := npResize (sliceRows (readArr st i) start stop) (B :: t)
    let st₁ := st ++ [resized]
    some (st₁ ++ [astype resized (tritonToNp spec.datatype)], st₁.length)

/-- The `enumerate(self.model_inputs.keys())` loop of lines 300-311 for one
window, heap-level; `inpIds` maps each input name to the id of the caller's
array. -/
def windowStore (B start stop : Nat) (inpIds : List (String × Nat)) :
    List (String × InSpec) → Store → Option (Store × List Nat)
  | [], st => some (st, [])
  | (name, spec) :: rest, st =>
    match inpIds.lookup name with
    | none => none
    | some i =>
      match sendArrayStore B spec st i start stop with
      | none => none
      | some (st', sentId) =>
        (windowStore B start stop inpIds rest st').map fun r => (r.1, sentId :: r.2)

/-- The whole dispatch loop's input processing over all planned windows,
heap-level. -/
def runWindowsStore (B : Nat) (inpIds : List (String × Nat))
    (minputs : List (String × InSpec)) :
    List (Nat × Nat) → Store → Option (Store × List (List Nat))
  | [], st => some (st, [])
  | (s, e) :: ws, st =>
    match windowStore B s e inpIds minputs st with
    | none => none
    | some (st', ids) =>
      (runWindowsStore B inpIds minputs ws st').map fun r => (r.1, ids :: r.2)

/-! ### Concrete fixtures (used by witnesses and counterexamples) -/

/-- Schema with one input "x" of declared shape `(-1, 1)` and type FP32. -/
def fixMin : List (String × InSpec) := [("x", ⟨[-1, 1], "FP32"⟩)]

/-- Schema with one output "y" of declared shape `(-1, 1)`. -/
def fixMout : List (String × OutSpec) := [("y", ⟨[-1, 1]⟩)]

/-- Output schema whose trailing declared dimension is a wildcard `-1`. -/
def fixMoutW : List (String × OutSpec) := [("y", ⟨[-1, -1]⟩)]

/-- Request input "x" of shape `(3, 1)`. -/
def fixInp3 : List (String × NpArray) := [("x", ⟨"float32", [3, 1], [1, 2, 3]⟩)]

/-- Request input "x" of shape `(1, 1)`. -/
def fixInp1 : List (String × NpArray) := [("x", ⟨"float32", [1, 1], [5]⟩)]

/-- Request input "x" of shape `(0, 1)` (leading dimension zero). -/
def fixInp0 : List (String × NpArray) := [("x", ⟨"float32", [0, 1], []⟩)]

/-- A deterministic transport: every round trip returns, for every output
name, the same `(2, 1)`-shaped array (a full batch for `B = 2`). -/
def fixClient : Client := fun _ _ => fun _ => ⟨"float32", [2, 1], [10, 20]⟩

/-- Request input "x" whose dtype (float64) differs from the schema-declared
FP32 (numpy float32). -/
def fixInpD : List (String × NpArray) := [("x", ⟨"float64", [3, 1], [1, 2, 3]⟩)]

/-- Schema with two inputs "a" (rank 2) and "b" (rank 1). -/
def fixMinAB : List (String × InSpec) :=
  [("a", ⟨[-1, 4], "FP32"⟩), ("b", ⟨[-1], "FP32"⟩)]

/-- A request providing only "a", with rank 3 (schema says rank 2), and
lacking the schema-required input "b". -/
def fixInpA : List (String × NpArray) :=
  [("a", ⟨"float32", [2, 4, 1], [0, 0, 0, 0, 0, 0, 0, 0]⟩)]

/-! ### Basic lemmas -/

theorem pyRangeAux_fuel (step : Nat) (hs : 0 < step) :
    ∀ (f1 f2 start stop : Nat), stop - start ≤ f1 → stop - start ≤ f2 →
      pyRangeAux step f1 start stop = pyRangeAux step f2 start stop := by
  intro f1
  induction f1 with
  | zero =>
    intro f2 start stop h1 h2
    cases f2 with
    | zero => rfl
    | succ f2 =>
      simp only [pyRangeAux]
      rw [if_pos (by omega)]
  | succ f1 ih =>
    intro f2 start stop h1 h2
    cases f2 with
    | zero =>
      simp only [pyRangeAux]
      rw [if_pos (by omega)]
    | succ f2 =>
      simp only [pyRangeAux]
      by_cases hle : stop ≤ start
      · rw [if_pos hle, if_pos hle]
      · rw [if_neg hle, if_neg hle, ih f2 (start + step) stop (by omega) (by omega)]

theorem pyRange_of_le {start stop step : Nat} (h : stop ≤ start) :
    pyRange start stop step = [] := by
  unfold pyRange
  by_cases h0 : step = 0
  · rw [if_pos h0]
  · rw [if_neg h0, Nat.sub_eq_zero_of_le h]
    rfl

theorem pyRange_cons {start stop step : Nat} (h0 : step ≠ 0) (h1 : start < stop) :
    pyRange start stop step = start :: pyRange (start + step) stop step := by
  unfold pyRange
  rw [if_neg h0, if_neg h0]
  have he : stop - start = (stop - start - 1) + 1 := by omega
  rw [he]
  simp only [pyRangeAux]
  rw [if_neg (by omega)]
  rw [pyRangeAux_fuel step (by omega) (stop - start - 1) (stop - (start + step))
    (start + step) stop (by omega) (by omega)]

theorem pyRange_closed (step : Nat) (hs : 0 < step) :
    ∀ (n start stop : Nat), stop - start ≤ n →
      pyRange start stop step =
        (List.range ((stop - start + step - 1) / step)).map fun i => start + i * step := by
  intro n
  induction n with
  | zero =>
    intro start stop h
    have hle : stop ≤ start := by omega
    have hz : (stop - start + step - 1) / step = 0 := Nat.div_eq_of_lt (by omega)
    rw [pyRange_of_le hle, hz]
    simp
  | succ n ih =>
    intro start stop h
    by_cases hle : stop ≤ start
    · have hz : (stop - start + step - 1) / step = 0 := Nat.div_eq_of_lt (by omega)
      rw [pyRange_of_le hle, hz]
      simp
    · push_neg at hle
      rw [pyRange_cons (by omega) hle, ih (start + step) stop (by omega)]
      have hx : 0 < stop - start := by omega
      have hdiv : (stop - start + step - 1) / step
          = (stop - (start + step) + step - 1) / step + 1 := by
        have e1 : stop - start + step - 1 = (stop - start - 1) + step := by omega
        rw [e1, Nat.add_div_right _ hs]
        rcases Nat.lt_or_ge (stop - start) (step + 1) with hc | hc
        · have e2 : stop - (start + step) = 0 := by omega
          rw [e2, Nat.div_eq_of_lt (by omega), Nat.div_eq_of_lt (by omega)]
        · have e2 : stop - (start + step) + step - 1 = (stop - start - 1 - step) + step := by
            omega
          have e3 : stop - start - 1 = (stop - start - 1 - step) + step := by omega
          rw [e2, Nat.add_div_right _ hs]
          conv_lhs => rw [e3, Nat.add_div_right _ hs]
      rw [hdiv, List.range_succ_eq_map]
      simp only [List.map_cons, List.map_map]
      refine congrArg₂ _ (by omega) ?_
      apply List.map_congr_left
      intro i _
      simp [Function.comp, Nat.succ_mul]
      omega

theorem pyRange_eq (start stop step : Nat) (hs : 0 < step) :
    pyRange start stop step =
      (List.range ((stop - start + step - 1) / step)).map fun i => start + i * step :=
  pyRange_closed step hs (stop - start) start stop le_rfl

theorem planWindows_eq (L B : Nat) (hB : 0 < B) :
    planWindows L B =
      (List.range ((L + B - 1) / B)).map fun i => (i * B, min (i * B + B) L) := by
  unfold planWindows
  rw [pyRange_eq 0 L B hB]
  simp only [Nat.sub_zero, List.map_map]
  apply List.map_congr_left
  intro i _
  simp [Function.comp]

theorem ceil_pred_mul_lt {L B : Nat} (hB : 0 < B) (hL : 0 < L) :
    ((L + B - 1) / B - 1) * B < L := by
  have e1 : L + B - 1 = (L - 1) + B := by omega
  have e2 : (L + B - 1) / B = (L - 1) / B + 1 := by rw [e1, Nat.add_div_right _ hB]
  rw [e2]
  simp only [Nat.add_sub_cancel]
  have h3 : (L - 1) / B * B ≤ L - 1 := Nat.div_mul_le_self _ _
  omega

theorem le_ceil_mul {L B : Nat} (hB : 0 < B) : L ≤ (L + B - 1) / B * B := by
  rcases Nat.eq_zero_or_pos L with hL | hL
  · simp [hL]
  · have e1 : L + B - 1 = (L - 1) + B := by omega
    have e2 : (L + B - 1) / B = (L - 1) / B + 1 := by rw [e1, Nat.add_div_right _ hB]
    rw [e2]
    have h4 := Nat.div_add_mod (L - 1) B
    have h5 : (L - 1) % B < B := Nat.mod_lt _ hB
    have e3 : ((L - 1) / B + 1) * B = B * ((L - 1) / B) + B := by ring
    rw [e3]
    omega

theorem leadDim_sliceRows (a : NpArray) (start stop : Nat) :
    leadDim (sliceRows a start stop) =
      min stop (leadDim a) - min start (leadDim a) := rfl

theorem tail_sliceRows (a : NpArray) (start stop : Nat) :
    (sliceRows a start stop).shape.tail = a.shape.tail := rfl

theorem leadDim_npConcat (a b : NpArray) :
    leadDim (npConcat a b) = leadDim a + leadDim b := rfl

theorem mapOpt_eq_some_iff {α β : Type} {f : α → Option β} :
    ∀ {l : List α} {l' : List β},
      mapOpt f l = some l' ↔ List.Forall₂ (fun a b => f a = some b) l l' := by
  intro l
  induction l with
  | nil =>
    intro l'
    constructor
    · intro h
      simp only [mapOpt, Option.some.injEq] at h
      subst h
      exact List.Forall₂.nil
    · intro h
      cases h
      rfl
  | cons a l ih =>
    intro l'
    constructor
    · intro h
      simp only [mapOpt] at h
      cases hfa : f a with
      | none => rw [hfa] at h; exact absurd h (by simp)
      | some b =>
        rw [hfa] at h
        cases hml : mapOpt f l with
        | none => rw [hml] at h; exact absurd h (by simp)
        | some r =>
          rw [hml] at h
          simp only [Option.map_some', Option.some.injEq] at h
          subst h
          exact List.Forall₂.cons hfa (ih.mp hml)
    · intro h
      cases h with
      | cons hab hrest =>
        simp only [mapOpt, hab, ih.mpr hrest, Option.map_some']

theorem forall₂_mem_right {α β : Type} {R : α → β → Prop} :
    ∀ {l : List α} {l' : List β}, List.Forall₂ R l l' → ∀ b ∈ l', ∃ a ∈ l, R a b := by
  intro l l' h
  induction h with
  | nil => intro b hb; exact absurd hb (by simp)
  | cons hab _ ih =>
    intro b hb
    rcases List.mem_cons.mp hb with rfl | hb'
    · exact ⟨_, List.mem_cons_self _ _, hab⟩
    · rcases ih b hb' with ⟨a, ha, hr⟩
      exact ⟨a, List.mem_cons_of_mem _ ha, hr⟩

theorem npZeros_shape {sh : List Int} {z : NpArray} (h : npZeros sh = some z) :
    z.shape = sh.map Int.toNat := by
  unfold npZeros at h
  split at h
  · cases h; rfl
  · cases h

theorem npZeros_isSome {sh : List Int} (h : ∀ d ∈ sh, 0 ≤ d) :
    (npZeros sh).isSome := by
  unfold npZeros
  rw [if_pos (by simpa [List.all_eq_true] using h)]
  rfl

theorem runWindows_acc_lead (client : Client) (model version : String)
    (minputs : List (String × InSpec)) (outs : List String)
    (inp : List (String × NpArray)) (B : Nat)
    (hresp : ∀ i q o, o ∈ outs → leadDim (client i q o) = B) :
    ∀ (ws : List (Nat × Nat)) (n : Nat) (arrs : List NpArray) (log : List InferQuery)
      (m : Nat), arrs.length = outs.length → (∀ a ∈ arrs, leadDim a = m) →
      ∀ res, runWindows client model version minputs outs inp B ws n (some arrs) log
          = some res →
        ∃ arrs' log', res = (some arrs', log') ∧ arrs'.length = outs.length ∧
          ∀ a ∈ arrs', leadDim a = m + B * ws.length := by
  intro ws
  induction ws with
  | nil =>
    intro n arrs log m hlen hm res h
    simp only [runWindows, Option.some.injEq] at h
    exact ⟨arrs, log, h.symm, hlen, by simpa using hm⟩
  | cons w rest ih =>
    obtain ⟨start, stop⟩ := w
    intro n arrs log m hlen hm res h
    simp only [runWindows] at h
    cases hsent : sentInputs minputs inp B start stop with
    | none => rw [hsent] at h; exact absurd h (by simp)
    | some sent =>
      rw [hsent] at h
      simp only at h
      have hlen' :
          (arrs.zipWith npConcat
            (outs.map (client n ⟨model, version, sent, outs⟩))).length = outs.length := by
        simp [hlen]
      have hm' : ∀ a ∈ arrs.zipWith npConcat
          (outs.map (client n ⟨model, version, sent, outs⟩)), leadDim a = m + B := by
        intro a ha
        rw [List.mem_iff_getElem] at ha
        obtain ⟨i, hi, rfl⟩ := ha
        have hio : i < outs.length := by
          simp only [List.length_zipWith, List.length_map, hlen] at hi
          omega
        have hia : i < arrs.length := by omega
        rw [List.getElem_zipWith, List.getElem_map, leadDim_npConcat,
          hm _ (List.getElem_mem _),
          hresp n ⟨model, version, sent, outs⟩ _ (List.getElem_mem _)]
      obtain ⟨arrs', log', hres, hlen'', hm''⟩ := ih (n + 1) _ _ (m + B) hlen' hm' res h
      refine ⟨arrs', log', hres, hlen'', ?_⟩
      intro a ha
      rw [hm'' a ha]
      simp only [List.length_cons]
      ring

theorem runWindows_counter_irrel (client : Client) (model version : String)
    (minputs : List (String × InSpec)) (outs : List String)
    (inp : List (String × NpArray)) (B : Nat)
    (hdet : ∀ i j q, client i q = client j q) :
    ∀ (ws : List (Nat × Nat)) (n₁ n₂ : Nat) (acc : Option (List NpArray))
      (log : List InferQuery),
      runWindows client model version minputs outs inp B ws n₁ acc log =
        runWindows client model version minputs outs inp B ws n₂ acc log := by
  intro ws
  induction ws with
  | nil => intro n₁ n₂ acc log; rfl
  | cons w rest ih =>
    obtain ⟨s, e⟩ := w
    intro n₁ n₂ acc log
    simp only [runWindows]
    cases hs : sentInputs minputs inp B s e with
    | none => rfl
    | some sent =>
      simp only
      rw [hdet n₁ n₂ ⟨model, version, sent, outs⟩]
      exact ih (n₁ + 1) (n₂ + 1) _ _

theorem planWindows_cons {L B : Nat} (hB : 0 < B) (hL : 0 < L) :
    planWindows L B =
      (0, min B L) :: ((pyRange B L B).map fun s => (s, min (s + B) L)) := by
  unfold planWindows
  rw [pyRange_cons (by omega) hL]
  simp [Nat.min_comm]

theorem runWindows_plan (client : Client) (model version : String)
    (minputs : List (String × InSpec)) (outs : List String)
    (inp : List (String × NpArray)) (B L n₀ : Nat)
    (hresp : ∀ i q o, o ∈ outs → leadDim (client i q o) = B)
    (hB : 0 < B) (hL : 0 < L) :
    ∀ res, runWindows client model version minputs outs inp B (planWindows L B) n₀ none []
        = some res →
      ∃ arrs log, res = (some arrs, log) ∧ arrs.length = outs.length ∧
        ∀ a ∈ arrs, leadDim a = min B L + B * (pyRange B L B).length := by
  intro res h
  rw [planWindows_cons hB hL] at h
  simp only [runWindows] at h
  cases hsent : sentInputs minputs inp B 0 (min B L) with
  | none => rw [hsent] at h; exact absurd h (by simp)
  | some sent =>
    rw [hsent] at h
    simp only at h
    have hlen1 :
        (outs.map fun o =>
          sliceRows (client n₀ ⟨model, version, sent, outs⟩ o) 0 (min B L)).length
          = outs.length := by simp
    have hm1 : ∀ a ∈ (outs.map fun o =>
        sliceRows (client n₀ ⟨model, version, sent, outs⟩ o) 0 (min B L)),
        leadDim a = min B L := by
      intro a ha
      rw [List.mem_map] at ha
      obtain ⟨o, ho, rfl⟩ := ha
      rw [leadDim_sliceRows, hresp n₀ ⟨model, version, sent, outs⟩ o ho]
      omega
    obtain ⟨arrs, lg, hres, hlen2, hm2⟩ :=
      runWindows_acc_lead client model version minputs outs inp B hresp _ _ _ _ _
        hlen1 hm1 res h
    refine ⟨arrs, lg, hres, hlen2, ?_⟩
    intro a ha
    rw [hm2 a ha]
    simp

theorem le_min_add_rest {L B : Nat} (hB : 0 < B) (hL : 0 < L) :
    L ≤ min B L + B * (pyRange B L B).length := by
  have hlen : (pyRange B L B).length = (L - B + B - 1) / B := by
    rw [pyRange_eq B L B hB]
    simp
  rw [hlen]
  rcases le_or_lt L B with hc | hc
  · have e0 : L - B = 0 := by omega
    rw [e0]
    have e1 : (0 + B - 1) / B = 0 := Nat.div_eq_of_lt (by omega)
    rw [e1]
    omega
  · have hmin : min B L = B := by omega
    have e1 : L - B + B - 1 = (L - B - 1) + B := by omega
    rw [hmin, e1, Nat.add_div_right _ hB]
    have h4 := Nat.div_add_mod (L - B - 1) B
    have h5 : (L - B - 1) % B < B := Nat.mod_lt _ hB
    have e3 : B * ((L - B - 1) / B + 1) = B * ((L - B - 1) / B) + B := by ring
    rw [e3]
    omega

/-- Claim C1: for every batch size `B > 0`, every request whose input arrays
all have leading dimension `L`, and a transport returning per-output arrays
of leading dimension `B` for each round trip, every array in the mapping
returned by `numpy_call` has leading dimension exactly `L`. -/
theorem numpy_call_result_leadDim (client : Client) (model version : String)
    (minputs : List (String × InSpec)) (mouts : List (String × OutSpec))
    (outs : List String) (inp : List (String × NpArray)) (B L n₀ : Nat)
    (hlead : ∀ p ∈ inp, ∃ t, (Prod.snd p : NpArray).shape = L :: t)
    (hresp : ∀ i q o, o ∈ outs → leadDim (client i q o) = B)
    (res : List (String × NpArray)) (log : List InferQuery)
    (h : numpy_call client model version minputs mouts outs inp B n₀ = some (res, log)) :
    ∀ p ∈ res, leadDim p.2 = L := by
  unfold numpy_call at h
  cases hmap : mapOpt (fun p => (inp.lookup p.1).map fun a => inferShape B p.2 a)
      minputs with
  | none => rw [hmap] at h; exact absurd h (by simp)
  | some shapes =>
  rw [hmap] at h
  rcases inp with _ | ⟨⟨nm, first⟩, rest⟩
  · exact absurd h (by simp)
  obtain ⟨t, hfs⟩ := hlead (nm, first) (List.mem_cons_self _ _)
  simp only at hfs
  simp only at h
  rw [hfs] at h
  simp only at h
  by_cases hB0 : B = 0
  · rw [hB0] at h
    exact absurd h (by simp)
  have hB : 0 < B := Nat.pos_of_ne_zero hB0
  rw [if_neg hB0] at h
  rcases Nat.eq_zero_or_pos L with hL | hL
  · subst hL
    have hplan : planWindows 0 B = [] := by
      unfold planWindows
      rw [pyRange_of_le (le_refl 0)]
      rfl
    rw [hplan] at h
    simp only [runWindows] at h
    cases hz : mapOpt (fun o => (mouts.lookup o).bind fun spec =>
        npZeros ((0 : Int) :: spec.shape.tail)) outs with
    | none => rw [hz] at h; exact absurd h (by simp)
    | some zs =>
      rw [hz] at h
      simp only [Option.map_some', Option.some.injEq] at h
      injection h with h1 h2
      subst h1
      intro p hp
      obtain ⟨o, z⟩ := p
      have hz2 := (List.of_mem_zip hp).2
      obtain ⟨o', _, hspec⟩ :=
        forall₂_mem_right (mapOpt_eq_some_iff.mp hz) z hz2
      obtain ⟨spec, _, hzer⟩ := Option.bind_eq_some.mp hspec
      have := npZeros_shape hzer
      simp only [List.map_cons] at this
      simp [leadDim, this]
  · cases hrun : runWindows client model version minputs outs
        (⟨nm, first⟩ :: rest) B (planWindows L B) n₀ none [] with
    | none => rw [hrun] at h; exact absurd h (by simp)
    | some r =>
      rw [hrun] at h
      obtain ⟨arrs, lg, hr, hlen, hm⟩ :=
        runWindows_plan client model version minputs outs (⟨nm, first⟩ :: rest)
          B L n₀ hresp hB hL r hrun
      rw [hr] at h
      simp only [Option.some.injEq] at h
      injection h with h1 h2
      subst h1
      intro p hp
      obtain ⟨o, a⟩ := p
      have ha := (List.of_mem_zip hp).2
      rw [List.mem_map] at ha
      obtain ⟨a', ha', rfl⟩ := ha
      have hlead' := hm a' ha'
      have hge := le_min_add_rest (L := L) hB hL
      simp only [leadDim_sliceRows]
      omega

/-- Claim C4 (amended): in the dispatch loop only the first round trip's
per-output result is sliced to the first window's rows; every later round
trip's full `B`-row (padded) response is concatenated untrimmed, so before
the final truncation each accumulated output has
`min B L + B * (number of windows - 1)` rows, which is at least `L`; the
final `[:orig_len]` truncation is what removes the last window's padding and
produces exactly `L` rows. -/
theorem runWindows_untrimmed_concat (client : Client) (model version : String)
    (minputs : List (String × InSpec)) (outs : List String)
    (inp : List (String × NpArray)) (B L n₀ : Nat)
    (hresp : ∀ i q o, o ∈ outs → leadDim (client i q o) = B)
    (hB : 0 < B) (hL : 0 < L)
    (arrs : List NpArray) (log : List InferQuery)
    (h : runWindows client model version minputs outs inp B (planWindows L B) n₀ none []
      = some (some arrs, log)) :
    arrs.length = outs.length ∧
    (∀ a ∈ arrs, leadDim a = min B L + B * ((planWindows L B).length - 1)) ∧
    L ≤ min B L + B * ((planWindows L B).length - 1) ∧
    ∀ a ∈ arrs, leadDim (sliceRows a 0 L) = L := by
  obtain ⟨arrs', lg', hres, hlen, hm⟩ :=
    runWindows_plan client model version minputs outs inp B L n₀ hresp hB hL _ h
  injection hres with h1 h2
  injection h1 with h1
  subst h1
  have hplanlen : (planWindows L B).length - 1 = (pyRange B L B).length := by
    rw [planWindows_cons hB hL]
    simp
  have hge := le_min_add_rest (L := L) hB hL
  refine ⟨hlen, ?_, ?_, ?_⟩
  · intro a ha
    rw [hm a ha, hplanlen]
  · rw [hplanlen]
    exact hge
  · intro a ha
    have := hm a ha
    rw [leadDim_sliceRows]
    omega

/-- Claim C2: for every `L ≥ 0` and batch size `B > 0`, the window plan
consists of exactly `⌈L/B⌉ = (L + B - 1) / B` windows; window `i` is the
half-open interval `[i*B, min (i*B + B) L)`; a position `x` lies in some
window iff `x < L`; distinct windows never share a position; consecutive
windows abut; and for `L = 0` the plan is empty. -/
theorem planWindows_partition (L B : Nat) (hB : 0 < B) :
    (planWindows L B).length = (L + B - 1) / B ∧
    (∀ i (h : i < (planWindows L B).length),
      (planWindows L B)[i] = (i * B, min (i * B + B) L)) ∧
    (∀ x, x < L ↔ ∃ w ∈ planWindows L B, w.1 ≤ x ∧ x < w.2) ∧
    (∀ w ∈ planWindows L B, ∀ w' ∈ planWindows L B,
      (∃ x, w.1 ≤ x ∧ x < w.2 ∧ w'.1 ≤ x ∧ x < w'.2) → w = w') ∧
    (∀ i (h1 : i < (planWindows L B).length) (h2 : i + 1 < (planWindows L B).length),
      ((planWindows L B)[i]).2 = ((planWindows L B)[i + 1]).1) ∧
    (L = 0 → planWindows L B = []) := by
  have hE := planWindows_eq L B hB
  have hlen : (planWindows L B).length = (L + B - 1) / B := by rw [hE]; simp
  refine ⟨hlen, ?_, ?_, ?_, ?_, ?_⟩
  · intro i h
    have hi : i < (L + B - 1) / B := by omega
    simp only [hE, List.getElem_map, List.getElem_range]
  · intro x
    constructor
    · intro hx
      have hL : 0 < L := by omega
      have e2 : (L + B - 1) / B = (L - 1) / B + 1 := by
        have e1 : L + B - 1 = (L - 1) + B := by omega
        rw [e1, Nat.add_div_right _ hB]
      have hxk : x / B < (L + B - 1) / B := by
        have : x / B ≤ (L - 1) / B := Nat.div_le_div_right (by omega)
        omega
      refine ⟨(x / B * B, min (x / B * B + B) L), ?_, ?_, ?_⟩
      · rw [hE]
        exact List.mem_map.mpr ⟨x / B, List.mem_range.mpr hxk, rfl⟩
      · exact Nat.div_mul_le_self x B
      · have h4 := Nat.div_add_mod x B
        have h5 : x % B < B := Nat.mod_lt _ hB
        have e : x / B * B = B * (x / B) := Nat.mul_comm _ _
        omega
    · rintro ⟨w, hw, h1, h2⟩
      rw [hE] at hw
      rw [List.mem_map] at hw
      obtain ⟨i, _, rfl⟩ := hw
      simp only at h1 h2
      omega
  · intro w hw w' hw' ⟨x, ha1, ha2, hb1, hb2⟩
    rw [hE, List.mem_map] at hw hw'
    obtain ⟨i, _, rfl⟩ := hw
    obtain ⟨i', _, rfl⟩ := hw'
    simp only at ha1 ha2 hb1 hb2
    rcases Nat.lt_trichotomy i i' with hlt | heq | hgt
    · have hmono : (i + 1) * B ≤ i' * B := Nat.mul_le_mul_right _ (by omega)
      have expand : (i + 1) * B = i * B + B := by ring
      omega
    · rw [heq]
    · have hmono : (i' + 1) * B ≤ i * B := Nat.mul_le_mul_right _ (by omega)
      have expand : (i' + 1) * B = i' * B + B := by ring
      omega
  · intro i h1 h2
    have hk2 : 2 ≤ (L + B - 1) / B := by omega
    have hL : 0 < L := by
      rcases Nat.eq_zero_or_pos L with h0 | h0
      · subst h0
        have : (0 + B - 1) / B = 0 := Nat.div_eq_of_lt (by omega)
        omega
      · exact h0
    have hi : i < (L + B - 1) / B := by omega
    have hi1 : i + 1 < (L + B - 1) / B := by omega
    simp only [hE, List.getElem_map, List.getElem_range]
    have hmono : (i + 1) * B ≤ ((L + B - 1) / B - 1) * B :=
      Nat.mul_le_mul_right _ (by omega)
    have hlt := ceil_pred_mul_lt hB hL
    have expand : (i + 1) * B = i * B + B := by ring
    omega
  · intro h0
    subst h0
    unfold planWindows
    rw [pyRange_of_le (le_refl 0)]
    rfl

theorem take_drop_eq_map_range (l : List Int) (off sz : Nat) (h : off + sz ≤ l.length) :
    (l.drop off).take sz = (List.range sz).map fun k => l.getD (off + k) 0 := by
  apply List.ext_getElem
  · simp
    omega
  · intro i h1 h2
    have hi : i < sz := by simp at h2; omega
    rw [List.getElem_take, List.getElem_drop, List.getElem_map, List.getElem_range,
      List.getD_eq_getElem l 0 (by omega)]

theorem getD_map_range (n i : Nat) (f : Nat → Int) (h : i < n) :
    ((List.range n).map f).getD i 0 = f i := by
  rw [List.getD_eq_getElem _ 0 (by simp [h]), List.getElem_map, List.getElem_range]

theorem getRow_npResize {s : NpArray} {n m j : Nat} {t2 : List Nat}
    (hsh : s.shape = n :: t2) (hlen : s.data.length = n * t2.prod)
    (hn : 0 < n) (hj : j < m) :
    getRow (npResize s (m :: t2)) j = getRow s (j % n) := by
  rcases Nat.eq_zero_or_pos t2.prod with hrs0 | hrspos
  · simp [getRow, rowSize, npResize, hsh, hrs0]
  · have hdne : ¬ s.data.length = 0 := by
      rw [hlen]
      have := Nat.mul_pos hn hrspos
      omega
    have hres : (npResize s (m :: t2)).data
        = (List.range ((m :: t2).prod)).map fun i => s.data.getD (i % s.data.length) 0 := by
      unfold npResize
      rw [if_neg hdne]
    have hprod : (m :: t2).prod = m * t2.prod := by simp
    have hrowR : rowSize (npResize s (m :: t2)) = t2.prod := by
      simp [rowSize, npResize]
    have hrowS : rowSize s = t2.prod := by simp [rowSize, hsh]
    have hjn : j % n < n := Nat.mod_lt _ hn
    unfold getRow
    rw [hrowR, hrowS, hres, hprod]
    rw [take_drop_eq_map_range _ _ _ (by
      simp only [List.length_map, List.length_range]
      have : (j + 1) * t2.prod ≤ m * t2.prod := Nat.mul_le_mul_right _ (by omega)
      have e : (j + 1) * t2.prod = j * t2.prod + t2.prod := by ring
      omega)]
    rw [take_drop_eq_map_range _ _ _ (by
      rw [hlen]
      have : (j % n + 1) * t2.prod ≤ n * t2.prod := Nat.mul_le_mul_right _ (by omega)
      have e : (j % n + 1) * t2.prod = j % n * t2.prod + t2.prod := by ring
      omega)]
    apply List.map_congr_left
    intro k hk
    rw [List.mem_range] at hk
    rw [getD_map_range _ _ _ (by
      have : (j + 1) * t2.prod ≤ m * t2.prod := Nat.mul_le_mul_right _ (by omega)
      have e : (j + 1) * t2.prod = j * t2.prod + t2.prod := by ring
      omega)]
    have hdm := Nat.div_add_mod j n
    have e : j * t2.prod + k = j % n * t2.prod + k + j / n * (n * t2.prod) := by
      calc j * t2.prod + k = (n * (j / n) + j % n) * t2.prod + k := by rw [hdm]
        _ = j % n * t2.prod + k + j / n * (n * t2.prod) := by ring
    rw [hlen, e, Nat.add_mul_mod_self_right, Nat.mod_eq_of_lt (by
      have h1 : j % n * t2.prod + k < (j % n + 1) * t2.prod := by
        have e2 : (j % n + 1) * t2.prod = j % n * t2.prod + t2.prod := by ring
        omega
      have h2 : (j % n + 1) * t2.prod ≤ n * t2.prod := Nat.mul_le_mul_right _ (by omega)
      omega)]

theorem sliceRows_wf {a : NpArray} {L : Nat} {t : List Nat} {start stop : Nat}
    (hsh : a.shape = L :: t) (hwf : a.data.length = L * t.prod)
    (h1 : start ≤ stop) (h2 : stop ≤ L) :
    (sliceRows a start stop).shape = (stop - start) :: t ∧
    (sliceRows a start stop).data.length = (stop - start) * t.prod := by
  have hld : leadDim a = L := by simp [leadDim, hsh]
  have hrow : rowSize a = t.prod := by simp [rowSize, hsh]
  have hmin1 : min stop (leadDim a) = stop := by rw [hld]; omega
  have hmin2 : min start (leadDim a) = start := by rw [hld]; omega
  constructor
  · simp [sliceRows, hmin1, hmin2, hsh]
  · simp only [sliceRows, hmin1, hmin2, hrow, List.length_take, List.length_drop, hwf]
    have hle : (stop - start) * t.prod ≤ L * t.prod - start * t.prod := by
      have e : L * t.prod - start * t.prod = (L - start) * t.prod := by
        rw [Nat.sub_mul]
      rw [e]
      exact Nat.mul_le_mul_right _ (by omega)
    omega

/-- Claim C3: for every planned window `[start, stop)` with at least one row
and every input array, the padded batch built by `numpy.resize` agrees with
the window slice on its first `stop - start` rows, and every trailing
(padded) row is a copy of one of the slice's own rows — row `j` of the batch
is row `j % (stop - start)` of the slice (cyclic tiling), never a fresh
zero-filled row. -/
theorem sendArray_padding (B start stop L : Nat) (spec : InSpec) (a : NpArray)
    (t : List Nat)
    (hsh : a.shape = L :: t) (hwf : a.data.length = L * t.prod)
    (h1 : start < stop) (h2 : stop ≤ L) (h3 : stop - start ≤ B) :
    ∀ d, sendArray B spec a start stop = some d →
      (∀ j, j < stop - start → getRow d j = getRow (sliceRows a start stop) j) ∧
      (∀ j, j < B →
        getRow d j = getRow (sliceRows a start stop) (j % (stop - start)) ∧
        j % (stop - start) < stop - start) := by
  intro d hd
  unfold sendArray at hd
  rw [hsh] at hd
  simp only [Option.some.injEq] at hd
  subst hd
  obtain ⟨hssh, hslen⟩ := sliceRows_wf hsh hwf (le_of_lt h1) h2
  have hn : 0 < stop - start := by omega
  have hgetA : ∀ j, getRow (astype (npResize (sliceRows a start stop) (B :: t))
      (tritonToNp spec.datatype)) j
      = getRow (npResize (sliceRows a start stop) (B :: t)) j := fun j => rfl
  constructor
  · intro j hj
    rw [hgetA, getRow_npResize hssh hslen hn (lt_of_lt_of_le hj h3),
      Nat.mod_eq_of_lt hj]
  · intro j hj
    exact ⟨by rw [hgetA, getRow_npResize hssh hslen hn hj], Nat.mod_lt _ hn⟩

theorem checkInputs_append_ok (minputs : List (String × InSpec)) :
    ∀ (pre rest : List (String × NpArray)) (ws : List String),
      (∀ p ∈ pre, ∃ s, minputs.lookup p.1 = some s ∧
        (Prod.snd p : NpArray).shape.length = s.shape.length ∧ shapeOkB s p.2 = true) →
      ∃ ws', checkInputs minputs (pre ++ rest) ws = checkInputs minputs rest ws' := by
  intro pre
  induction pre with
  | nil => intro rest ws _; exact ⟨ws, rfl⟩
  | cons p pre ih =>
    obtain ⟨nm, arr⟩ := p
    intro rest ws hpre
    obtain ⟨s, hls, hrk, hok⟩ := hpre (nm, arr) (List.mem_cons_self _ _)
    simp only at hls hrk hok
    simp only [List.cons_append, checkInputs, hls]
    rw [if_neg (by simp [hrk]), if_neg (by simp [hok])]
    exact ih rest _ (fun p hp => hpre p (List.mem_cons_of_mem _ hp))

/-- Claim C5 (amended): `validate_numpy_input` iterates the provided inputs
in request order, checking each in turn for unknown name, rank mismatch and
fixed-dimension mismatch (a dtype mismatch only warns); only after this loop
does it check for missing schema inputs, and finally for unknown outputs.
In particular, a request that both lacks a schema-required input and
contains a present input with a rank mismatch raises the rank error, not the
missing-input error — regardless of which schema inputs are absent. -/
theorem validate_rank_error_first (minputs : List (String × InSpec))
    (mouts : List (String × OutSpec)) (outs : List String)
    (pre post : List (String × NpArray)) (iname : String) (iarr : NpArray)
    (ispec : InSpec)
    (hpre : ∀ p ∈ pre, ∃ s, minputs.lookup p.1 = some s ∧
      (Prod.snd p : NpArray).shape.length = s.shape.length ∧ shapeOkB s p.2 = true)
    (hname : minputs.lookup iname = some ispec)
    (hrank : iarr.shape.length ≠ ispec.shape.length) :
    validate minputs mouts outs (pre ++ (iname, iarr) :: post)
      = .error (.rankMismatch iname iarr.shape.length ispec.shape.length) := by
  obtain ⟨ws', hws⟩ := checkInputs_append_ok minputs pre ((iname, iarr) :: post) [] hpre
  have hstep : checkInputs minputs ((iname, iarr) :: post) ws'
      = .error (.rankMismatch iname iarr.shape.length ispec.shape.length) := by
    simp only [checkInputs, hname]
    rw [if_pos hrank]
  unfold validate
  rw [hws, hstep]
  rfl

/-- Claim C6 (amended): an explicitly stored nonnegative batch size — zero
included — is returned as-is and the server config is never consulted; a
negative stored value consults the config, preferring
`dynamic_batching.preferred_batch_size[0]` whenever `dynamic_batching` is
present, else `max_batch_size` whenever that key is present (with no
positivity check), else the fallback constant 10 with a warning; and a
nonnegative resolved value is stored, so a later access returns it without
consulting the config again. -/
theorem resolveBatchSize_spec :
    (∀ b cfg, 0 ≤ b → resolveBatchSize b cfg = some (b, false, false)) ∧
    (∀ b cfg h rest, b < 0 → cfg.dynamic_batching = some (h :: rest) →
      resolveBatchSize b cfg = some (h, false, true)) ∧
    (∀ b cfg m, b < 0 → cfg.dynamic_batching = none → cfg.max_batch_size = some m →
      resolveBatchSize b cfg = some (m, false, true)) ∧
    (∀ b cfg, b < 0 → cfg.dynamic_batching = none → cfg.max_batch_size = none →
      resolveBatchSize b cfg = some (batch_size_fallback, true, true)) ∧
    (∀ b cfg r w c cfg2, resolveBatchSize b cfg = some (r, w, c) → 0 ≤ r →
      resolveBatchSize r cfg2 = some (r, false, false)) := by
  refine ⟨?_, ?_, ?_, ?_, ?_⟩
  · intro b cfg hb
    unfold resolveBatchSize
    rw [if_neg (by omega)]
  · intro b cfg h rest hb hdb
    unfold resolveBatchSize
    rw [if_pos hb, hdb]
    rfl
  · intro b cfg m hb hdb hmb
    unfold resolveBatchSize
    rw [if_pos hb, hdb, hmb]
  · intro b cfg hb hdb hmb
    unfold resolveBatchSize
    rw [if_pos hb, hdb, hmb]
  · intro b cfg r w c cfg2 _ hr
    unfold resolveBatchSize
    rw [if_neg (by omega)]

theorem mapOpt_isSome {α β : Type} {f : α → Option β} :
    ∀ {l : List α}, (∀ a ∈ l, (f a).isSome) → ∃ l', mapOpt f l = some l' := by
  intro l
  induction l with
  | nil => intro _; exact ⟨[], rfl⟩
  | cons a l ih =>
    intro h
    obtain ⟨b, hb⟩ := Option.isSome_iff_exists.mp (h a (List.mem_cons_self _ _))
    obtain ⟨l', hl'⟩ := ih (fun x hx => h x (List.mem_cons_of_mem _ hx))
    exact ⟨b :: l', by simp only [mapOpt, hb, hl', Option.map_some']⟩

/-- Claim C7 (amended): for a request whose arrays have leading dimension
`L = 0`, provided every requested output is a declared output whose trailing
declared dimensions are all nonnegative, `numpy_call` issues zero transport
round trips (its query log is empty) and returns, for each requested output
in order, a zero-length array of shape `(0, *declaredOutputShape[1:])`. If
some requested output's trailing declared dimension is negative (a
wildcard), the `numpy.zeros` synthesis raises instead of returning. -/
theorem numpy_call_zero_len (client : Client) (model version : String)
    (minputs : List (String × InSpec)) (mouts : List (String × OutSpec))
    (outs : List String) (nm : String) (first : NpArray)
    (rest : List (String × NpArray)) (B n₀ : Nat) (t : List Nat)
    (hfs : first.shape = 0 :: t) (hB : 0 < B)
    (hki : ∀ p ∈ minputs,
      ((((nm, first) :: rest) : List (String × NpArray)).lookup (Prod.fst p)).isSome)
    (hko : ∀ o ∈ outs, ∃ spec, mouts.lookup o = some spec ∧
      ∀ d ∈ spec.shape.tail, 0 ≤ d) :
    ∃ zs, numpy_call client model version minputs mouts outs ((nm, first) :: rest) B n₀
        = some (outs.zip zs, []) ∧
      List.Forall₂ (fun o z => ∃ spec, mouts.lookup o = some spec ∧
        (z : NpArray).shape = 0 :: spec.shape.tail.map Int.toNat) outs zs := by
  obtain ⟨shapes, hshapes⟩ :=
    mapOpt_isSome (l := minputs)
      (f := fun p => (((nm, first) :: rest).lookup p.1).map fun a => inferShape B p.2 a)
      (by
        intro p hp
        obtain ⟨a, ha⟩ := Option.isSome_iff_exists.mp (hki p hp)
        simp [ha])
  obtain ⟨zs, hzs⟩ :=
    mapOpt_isSome (l := outs)
      (f := fun o => (mouts.lookup o).bind fun spec => npZeros ((0 : Int) :: spec.shape.tail))
      (by
        intro o ho
        obtain ⟨spec, hsp, hnn⟩ := hko o ho
        simp only [hsp, Option.some_bind]
        exact npZeros_isSome (by
          intro d hd
          rcases List.mem_cons.mp hd with rfl | hd'
          · exact le_refl 0
          · exact hnn d hd'))
  refine ⟨zs, ?_, ?_⟩
  · unfold numpy_call
    rw [hshapes]
    simp only
    rw [hfs]
    simp only
    rw [if_neg (by omega)]
    have hplan : planWindows 0 B = [] := by
      unfold planWindows
      rw [pyRange_of_le (le_refl 0)]
      rfl
    rw [hplan]
    simp only [runWindows]
    rw [hzs]
    rfl
  · refine List.Forall₂.imp ?_ (mapOpt_eq_some_iff.mp hzs)
    intro o z hz
    obtain ⟨spec, hsp, hzer⟩ := Option.bind_eq_some.mp hz
    refine ⟨spec, hsp, ?_⟩
    have := npZeros_shape hzer
    simpa using this

theorem checkInputs_ok (minputs : List (String × InSpec)) :
    ∀ (l : List (String × NpArray)) (ws : List String),
      (∀ p ∈ l, ∃ s, minputs.lookup p.1 = some s ∧
        (Prod.snd p : NpArray).shape.length = s.shape.length ∧ shapeOkB s p.2 = true) →
      ∃ ws', checkInputs minputs l ws = .ok ws' ∧ (∀ w ∈ ws, w ∈ ws') ∧
        ∀ p ∈ l, ∀ s, minputs.lookup p.1 = some s →
          (Prod.snd p : NpArray).dtype ≠ tritonToNp s.datatype →
            dtypeWarn p.1 p.2.dtype (tritonToNp s.datatype) ∈ ws' := by
  intro l
  induction l with
  | nil =>
    intro ws _
    exact ⟨ws, rfl, fun w hw => hw, by simp⟩
  | cons p l ih =>
    obtain ⟨nm, arr⟩ := p
    intro ws hl
    obtain ⟨s, hls, hrk, hok⟩ := hl (nm, arr) (List.mem_cons_self _ _)
    simp only at hls hrk hok
    obtain ⟨ws', hw1, hw2, hw3⟩ :=
      ih (ws ++ if arr.dtype ≠ tritonToNp s.datatype then
          [dtypeWarn nm arr.dtype (tritonToNp s.datatype)] else [])
        (fun p hp => hl p (List.mem_cons_of_mem _ hp))
    refine ⟨ws', ?_, ?_, ?_⟩
    · simp only [checkInputs, hls]
      rw [if_neg (by simp [hrk]), if_neg (by simp [hok])]
      exact hw1
    · intro w hw
      exact hw2 w (List.mem_append_left _ hw)
    · intro p hp s' hls' hdt
      rcases List.mem_cons.mp hp with rfl | hp'
      · simp only at hls' hdt
        rw [hls] at hls'
        injection hls' with hls'
        subst hls'
        refine hw2 _ (List.mem_append_right _ ?_)
        rw [if_pos hdt]
        exact List.mem_singleton.mpr rfl
      · exact hw3 p hp' s' hls' hdt

theorem checkMissing_ok (inp : List (String × NpArray)) :
    ∀ (l : List (String × InSpec)),
      (∀ q ∈ l, (inp.lookup (Prod.fst q)).isSome) → checkMissing inp l = .ok () := by
  intro l
  induction l with
  | nil => intro _; rfl
  | cons q l ih =>
    obtain ⟨nm, s⟩ := q
    intro h
    simp only [checkMissing]
    rw [if_pos (h (nm, s) (List.mem_cons_self _ _))]
    exact ih (fun q hq => h q (List.mem_cons_of_mem _ hq))

theorem checkOutputs_ok (mouts : List (String × OutSpec)) :
    ∀ (l : List String),
      (∀ o ∈ l, (mouts.lookup o).isSome) → checkOutputs mouts l = .ok () := by
  intro l
  induction l with
  | nil => intro _; rfl
  | cons o l ih =>
    intro h
    simp only [checkOutputs]
    rw [if_pos (h o (List.mem_cons_self _ _))]
    exact ih (fun o ho => h o (List.mem_cons_of_mem _ ho))

theorem sendArray_dtype {B start stop : Nat} {spec : InSpec} {a d : NpArray}
    (h : sendArray B spec a start stop = some d) :
    d.dtype = tritonToNp spec.datatype := by
  unfold sendArray at h
  cases hsh : a.shape with
  | nil => rw [hsh] at h; exact absurd h (by simp)
  | cons x t =>
    rw [hsh] at h
    simp only [Option.some.injEq] at h
    subst h
    rfl

/-- Claim C8: a dtype mismatch alone never fails validation nor blocks a
dispatch — when names, ranks, fixed dimensions, required inputs and
requested outputs are all in order, `validate` returns ok with one warning
message per dtype-mismatched input, and the executor sends every input cast
(`astype`) to the schema-declared numpy dtype. -/
theorem dtype_mismatch_nonfatal (minputs : List (String × InSpec))
    (mouts : List (String × OutSpec)) (outs : List String)
    (inp : List (String × NpArray))
    (hok : ∀ p ∈ inp, ∃ s, minputs.lookup p.1 = some s ∧
      (Prod.snd p : NpArray).shape.length = s.shape.length ∧ shapeOkB s p.2 = true)
    (hmiss : ∀ q ∈ minputs, (inp.lookup (Prod.fst q)).isSome)
    (houts : ∀ o ∈ outs, (mouts.lookup o).isSome) :
    (∃ ws, validate minputs mouts outs inp = .ok ws ∧
      ∀ p ∈ inp, ∀ s, minputs.lookup p.1 = some s →
        (Prod.snd p : NpArray).dtype ≠ tritonToNp s.datatype →
          dtypeWarn p.1 p.2.dtype (tritonToNp s.datatype) ∈ ws) ∧
    (∀ B start stop sent, sentInputs minputs inp B start stop = some sent →
      List.Forall₂ (fun (q : String × InSpec) (si : SentInput) =>
        si.data.dtype = tritonToNp q.2.datatype) minputs sent) := by
  constructor
  · obtain ⟨ws', hw1, _, hw3⟩ := checkInputs_ok minputs inp [] hok
    refine ⟨ws', ?_, hw3⟩
    unfold validate
    rw [hw1, checkMissing_ok inp minputs hmiss, checkOutputs_ok mouts outs houts]
    rfl
  · intro B start stop sent hsent
    refine List.Forall₂.imp ?_ (mapOpt_eq_some_iff.mp hsent)
    intro q si hq
    cases hl : inp.lookup q.1 with
    | none => rw [hl] at hq; exact absurd hq (by simp)
    | some a =>
      rw [hl] at hq
      simp only at hq
      obtain ⟨d, hd, hsi⟩ := Option.map_eq_some'.mp hq
      rw [← hsi]
      exact sendArray_dtype hd

/-- Claim C9: the dispatch pipeline introduces no nondeterminism of its own —
with a deterministic transport (responses do not depend on the global
round-trip counter), two `numpy_call` dispatches with identical output lists
and identical input arrays, issued one after the other (different starting
counters), return identical result mappings and issue identical queries. -/
theorem numpy_call_deterministic (client : Client) (model version : String)
    (minputs : List (String × InSpec)) (mouts : List (String × OutSpec))
    (outs : List String) (inp : List (String × NpArray)) (B n₁ n₂ : Nat)
    (hdet : ∀ i j q, client i q = client j q) :
    numpy_call client model version minputs mouts outs inp B n₁ =
      numpy_call client model version minputs mouts outs inp B n₂ := by
  unfold numpy_call
  cases hmap : mapOpt (fun p => (inp.lookup p.1).map fun a => inferShape B p.2 a)
      minputs with
  | none => rfl
  | some shapes =>
    rcases inp with _ | ⟨⟨nm, first⟩, rest⟩
    · rfl
    · simp only
      cases hsh : first.shape with
      | nil => rfl
      | cons L t =>
        simp only
        by_cases hB0 : B = 0
        · simp [hB0]
        · rw [if_neg hB0, if_neg hB0,
            runWindows_counter_irrel client model version minputs outs
              (((nm, first)) :: rest) B hdet (planWindows L B) n₁ n₂ none []]

theorem sendArrayStore_extends {B : Nat} {spec : InSpec} {st : Store}
    {i start stop : Nat} {st' : Store} {sid : Nat}
    (h : sendArrayStore B spec st i start stop = some (st', sid)) :
    ∃ tl, st' = st ++ tl := by
  unfold sendArrayStore at h
  cases hsh : (readArr st i).shape with
  | nil => rw [hsh] at h; exact absurd h (by simp)
  | cons x t =>
    rw [hsh] at h
    simp only [Option.some.injEq, Prod.mk.injEq] at h
    exact ⟨_, by rw [← h.1, List.append_assoc]⟩

theorem windowStore_extends {B s e : Nat} {inpIds : List (String × Nat)} :
    ∀ (minputs : List (String × InSpec)) (st st' : Store) (ids : List Nat),
      windowStore B s e inpIds minputs st = some (st', ids) → ∃ tl, st' = st ++ tl := by
  intro minputs
  induction minputs with
  | nil =>
    intro st st' ids h
    simp only [windowStore, Option.some.injEq, Prod.mk.injEq] at h
    exact ⟨[], by rw [← h.1, List.append_nil]⟩
  | cons q rest ih =>
    obtain ⟨nm, spec⟩ := q
    intro st st' ids h
    simp only [windowStore] at h
    cases hl : inpIds.lookup nm with
    | none => rw [hl] at h; exact absurd h (by simp)
    | some i =>
      rw [hl] at h
      simp only at h
      cases hs : sendArrayStore B spec st i s e with
      | none => rw [hs] at h; exact absurd h (by simp)
      | some r =>
        obtain ⟨st₁, sid⟩ := r
        rw [hs] at h
        simp only at h
        cases hw : windowStore B s e inpIds rest st₁ with
        | none => rw [hw] at h; exact absurd h (by simp)
        | some r2 =>
          obtain ⟨st₂, ids₂⟩ := r2
          rw [hw] at h
          simp only [Option.map_some', Option.some.injEq, Prod.mk.injEq] at h
          obtain ⟨tl₁, rfl⟩ := sendArrayStore_extends hs
          obtain ⟨tl₂, rfl⟩ := ih _ _ _ hw
          exact ⟨tl₁ ++ tl₂, by rw [← h.1, List.append_assoc]⟩

theorem runWindowsStore_extends {B : Nat} {inpIds : List (String × Nat)}
    {minputs : List (String × InSpec)} :
    ∀ (ws : List (Nat × Nat)) (st st' : Store) (batches : List (List Nat)),
      runWindowsStore B inpIds minputs ws st = some (st', batches) →
        ∃ tl, st' = st ++ tl := by
  intro ws
  induction ws with
  | nil =>
    intro st st' batches h
    simp only [runWindowsStore, Option.some.injEq, Prod.mk.injEq] at h
    exact ⟨[], by rw [← h.1, List.append_nil]⟩
  | cons w rest ih =>
    obtain ⟨s, e⟩ := w
    intro st st' batches h
    simp only [runWindowsStore] at h
    cases hw : windowStore B s e inpIds minputs st with
    | none => rw [hw] at h; exact absurd h (by simp)
    | some r =>
      obtain ⟨st₁, ids₁⟩ := r
      rw [hw] at h
      simp only at h
      cases hr : runWindowsStore B inpIds minputs rest st₁ with
      | none => rw [hr] at h; exact absurd h (by simp)
      | some r2 =>
        obtain ⟨st₂, b₂⟩ := r2
        rw [hr] at h
        simp only [Option.map_some', Option.some.injEq, Prod.mk.injEq] at h
        obtain ⟨tl₁, rfl⟩ := windowStore_extends _ _ _ _ hw
        obtain ⟨tl₂, rfl⟩ := ih _ _ _ hr
        exact ⟨tl₁ ++ tl₂, by rw [← h.1, List.append_assoc]⟩

theorem readArr_append (st tl : Store) (i : Nat) (h : i < st.length) :
    readArr (st ++ tl) i = readArr st i := by
  unfold readArr
  exact List.getD_append st tl default i h

/-- Claim C10: the per-window input processing of `numpy_call` (slice,
`numpy.resize`, `astype`) never mutates the caller's arrays: slicing only
reads, and resize/astype allocate fresh arrays, so after the whole dispatch
loop every heap entry that existed before — in particular every array of
`input_dict` — holds exactly its original value. -/
theorem runWindowsStore_frame (B : Nat) (inpIds : List (String × Nat))
    (minputs : List (String × InSpec)) (ws : List (Nat × Nat)) (st st' : Store)
    (batches : List (List Nat))
    (h : runWindowsStore B inpIds minputs ws st = some (st', batches)) :
    (∀ i, i < st.length → readArr st' i = readArr st i) ∧
    ∀ p ∈ inpIds, (Prod.snd p : Nat) < st.length →
      readArr st' p.2 = readArr st p.2 := by
  obtain ⟨tl, rfl⟩ := runWindowsStore_extends ws st _ batches h
  exact ⟨fun i hi => readArr_append st tl i hi,
    fun p _ hlt => readArr_append st tl p.2 hlt⟩

/-! ### Witnesses and counterexamples (concrete runs) -/

/-- Witness for `numpy_call_result_leadDim`: in a concrete dispatch (`L = 1`,
`B = 2`) the single result array has leading dimension 1. -/
theorem numpy_call_result_leadDim_witness :
    leadDim (⟨"float32", [1, 1], [10]⟩ : NpArray) = 1 :=
  numpy_call_result_leadDim fixClient "m" "v" fixMin fixMout ["y"] fixInp1 2 1 0
    (by
      intro p hp
      simp only [fixInp1, List.mem_singleton] at hp
      subst hp
      exact ⟨[1], rfl⟩)
    (fun i q o _ => rfl)
    [("y", ⟨"float32", [1, 1], [10]⟩)]
    [⟨"m", "v", [⟨"x", [2, 1], "FP32", ⟨"float32", [2, 1], [5, 5]⟩⟩], ["y"]⟩]
    (by decide)
    ("y", ⟨"float32", [1, 1], [10]⟩) (by decide)

/-- Witness for `planWindows_partition` at `L = 7`, `B = 3` (the spec's own
example: 3 windows), with the coverage property instantiated at `x = 5`. -/
theorem planWindows_partition_witness :
    (planWindows 7 3).length = (7 + 3 - 1) / 3 ∧
      (5 < 7 ↔ ∃ w ∈ planWindows 7 3, w.1 ≤ 5 ∧ 5 < w.2) :=
  ⟨(planWindows_partition 7 3 (by decide)).1,
    (planWindows_partition 7 3 (by decide)).2.2.1 5⟩

/-- Witness for `sendArray_padding`: in the window `[3, 5)` of a `(5, 2)`
array padded to `B = 3` rows, the padded third row (index 2) is a copy of
the slice's own row `2 % 2 = 0`. -/
theorem sendArray_padding_witness :
    getRow (⟨"float32", [3, 2], [7, 8, 9, 10, 7, 8]⟩ : NpArray) 2 =
        getRow (sliceRows ⟨"float64", [5, 2], [1, 2, 3, 4, 5, 6, 7, 8, 9, 10]⟩ 3 5)
          (2 % (5 - 3)) ∧
      2 % (5 - 3) < 5 - 3 :=
  (sendArray_padding 3 3 5 5 ⟨[-1, 2], "FP32"⟩
    ⟨"float64", [5, 2], [1, 2, 3, 4, 5, 6, 7, 8, 9, 10]⟩ [2]
    rfl rfl (by decide) (by decide) (by decide)
    ⟨"float32", [3, 2], [7, 8, 9, 10, 7, 8]⟩ (by decide)).2 2 (by decide)

/-- Witness for `runWindows_untrimmed_concat`: the `L = 3`, `B = 2` run in
which the accumulated output holds 4 rows before the final truncation to 3. -/
theorem runWindows_untrimmed_concat_witness :
    ([(⟨"float32", [4, 1], [10, 20, 10, 20]⟩ : NpArray)].length = ["y"].length) ∧
    leadDim (⟨"float32", [4, 1], [10, 20, 10, 20]⟩ : NpArray)
      = min 2 3 + 2 * ((planWindows 3 2).length - 1) ∧
    3 ≤ min 2 3 + 2 * ((planWindows 3 2).length - 1) ∧
    leadDim (sliceRows ⟨"float32", [4, 1], [10, 20, 10, 20]⟩ 0 3) = 3 := by
  have T := runWindows_untrimmed_concat fixClient "m" "v" fixMin ["y"] fixInp3 2 3 0
    (fun i q o _ => rfl) (by decide) (by decide)
    [⟨"float32", [4, 1], [10, 20, 10, 20]⟩]
    [⟨"m", "v", [⟨"x", [2, 1], "FP32", ⟨"float32", [2, 1], [1, 2]⟩⟩], ["y"]⟩,
      ⟨"m", "v", [⟨"x", [2, 1], "FP32", ⟨"float32", [2, 1], [3, 3]⟩⟩], ["y"]⟩]
    (by decide)
  exact ⟨T.1, T.2.1 ⟨"float32", [4, 1], [10, 20, 10, 20]⟩ (by decide), T.2.2.1,
    T.2.2.2 ⟨"float32", [4, 1], [10, 20, 10, 20]⟩ (by decide)⟩

/-- Counterexample to claim C4 as stated: for `L = 3`, `B = 2` (responses of
leading dimension `B`), the accumulated per-output array before the final
truncation has 4 rows, not `L = 3` — the second window's result was
concatenated untrimmed, and the final truncation is not merely defensive. -/
theorem runWindows_trim_cx :
    Option.map (fun r => Option.map (List.map leadDim) (Prod.fst r))
        (runWindows fixClient "m" "v" fixMin ["y"] fixInp3 2 (planWindows 3 2) 0 none [])
      = some (some [4]) ∧ (4 : Nat) ≠ 3 := by
  decide

/-- Witness for `validate_rank_error_first`: a request providing only a
rank-3 "a" (schema rank 2) while lacking the schema input "b" fails with the
rank error. -/
theorem validate_rank_error_first_witness :
    validate fixMinAB [] []
        ([] ++ ("a", (⟨"float32", [2, 4, 1], [0, 0, 0, 0, 0, 0, 0, 0]⟩ : NpArray)) :: [])
      = .error (.rankMismatch "a" 3 2) :=
  validate_rank_error_first fixMinAB [] [] [] [] "a"
    ⟨"float32", [2, 4, 1], [0, 0, 0, 0, 0, 0, 0, 0]⟩ ⟨[-1, 4], "FP32"⟩
    (fun p hp => absurd hp (List.not_mem_nil p))
    (by decide) (by decide)

/-- Counterexample to claim C5 as stated: the request lacks the required
input "b" *and* provides "a" with a rank mismatch; the code raises the rank
error for "a", not the missing-input error for "b" — the per-input checks of
the provided inputs run before the missing-input check. -/
theorem validate_order_cx :
    validate fixMinAB [] [] fixInpA = .error (.rankMismatch "a" 3 2) ∧
      validate fixMinAB [] [] fixInpA ≠ .error (.missingInput "b") := by
  refine ⟨rfl, ?_⟩
  intro h
  injection h with h'
  exact VError.noConfusion h'

/-- Witness for `resolveBatchSize_spec`: an explicit positive override is
returned unchanged without consulting the config. -/
theorem resolveBatchSize_spec_witness :
    resolveBatchSize 5 ⟨none, none⟩ = some (5, false, false) :=
  resolveBatchSize_spec.1 5 ⟨none, none⟩ (by decide)

/-- Counterexample to claim C6 as stated: with an explicit batch-size
argument of 0 (not `> 0`) and a server config reporting `max_batch_size = 7`,
the code uses 0 and never consults the config, where the claim predicts the
resolved value 7 obtained from the config. -/
theorem resolveBatchSize_zero_cx :
    resolveBatchSize 0 ⟨none, some 7⟩ = some (0, false, false) ∧
      resolveBatchSize 0 ⟨none, some 7⟩ ≠ some (7, false, true) := by
  decide

/-- Witness for `numpy_call_zero_len`: a length-0 request returns one
`(0, 1)`-shaped empty array for "y" with an empty query log (zero round
trips). -/
theorem numpy_call_zero_len_witness :
    Option.map (fun r => ((Prod.fst r).map fun p => (Prod.snd p : NpArray).shape,
        (Prod.snd r).length))
      (numpy_call fixClient "m" "v" fixMin fixMout ["y"] fixInp0 2 0)
      = some ([[0, 1]], 0) := by
  obtain ⟨zs, h1, h2⟩ := numpy_call_zero_len fixClient "m" "v" fixMin fixMout ["y"] "x"
    ⟨"float32", [0, 1], []⟩ [] 2 0 [1] rfl (by decide) (by decide)
    (by
      intro o ho
      simp only [List.mem_singleton] at ho
      subst ho
      exact ⟨⟨[-1, 1]⟩, by decide, by decide⟩)
  rw [show numpy_call fixClient "m" "v" fixMin fixMout ["y"] fixInp0 2 0
      = some ((["y"].zip zs : List (String × NpArray)), []) from h1]
  cases h2 with
  | cons hz htl =>
    cases htl
    obtain ⟨spec, hsp, hshape⟩ := hz
    have hspec : spec = ⟨[-1, 1]⟩ := by
      have hl : fixMout.lookup "y" = some ⟨[-1, 1]⟩ := by decide
      rw [hl] at hsp
      injection hsp with h
      exact h.symm
    subst hspec
    simp only [Option.map_some', List.zip_cons_cons, List.zip_nil_right]
    simp [hshape]

/-- Counterexample to claim C7 as stated: with a declared output shape
`(-1, -1)` (wildcard trailing dimension) and a length-0 request, the
zero-length synthesis `numpy.zeros(shape=(0, -1))` raises instead of
returning the promised empty array. -/
theorem numpy_call_zeros_wildcard_cx :
    numpy_call fixClient "m" "v" fixMin fixMoutW ["y"] fixInp0 2 0 = none := by
  decide

/-- Witness for `dtype_mismatch_nonfatal`: a float64 input against an FP32
schema validates ok, and the concrete batch it would send for the window
`[0, 2)` with `B = 2` carries the cast float32 data. -/
theorem dtype_mismatch_nonfatal_witness :
    (validate fixMin fixMout ["y"] fixInpD).isOk = true ∧
      List.Forall₂ (fun (q : String × InSpec) (si : SentInput) =>
        si.data.dtype = tritonToNp q.2.datatype) fixMin
        [⟨"x", [2, 1], "FP32", ⟨"float32", [2, 1], [1, 2]⟩⟩] := by
  have T := dtype_mismatch_nonfatal fixMin fixMout ["y"] fixInpD
    (by
      intro p hp
      simp only [fixInpD, List.mem_singleton] at hp
      subst hp
      exact ⟨⟨[-1, 1], "FP32"⟩, by decide, by decide, by decide⟩)
    (by decide) (by decide)
  obtain ⟨ws, hok, _⟩ := T.1
  exact ⟨by rw [hok]; rfl, T.2 2 0 2 _ (by decide)⟩

/-- Witness for `numpy_call_deterministic`: two runs of the same dispatch at
different global round-trip counters coincide. -/
theorem numpy_call_deterministic_witness :
    numpy_call fixClient "m" "v" fixMin fixMout ["y"] fixInp3 2 0 =
      numpy_call fixClient "m" "v" fixMin fixMout ["y"] fixInp3 2 5 :=
  numpy_call_deterministic fixClient "m" "v" fixMin fixMout ["y"] fixInp3 2 0 5
    (fun i j q => rfl)

/-- Witness for `runWindowsStore_frame`: in a concrete `L = 3`, `B = 2` run
the heap grows by the four freshly allocated arrays (resize and astype per
window) while the caller's array at id 0 is untouched. -/
theorem runWindowsStore_frame_witness :
    readArr [⟨"float32", [3, 1], [1, 2, 3]⟩, ⟨"float32", [2, 1], [1, 2]⟩,
        ⟨"float32", [2, 1], [1, 2]⟩, ⟨"float32", [2, 1], [3, 3]⟩,
        ⟨"float32", [2, 1], [3, 3]⟩] 0
      = readArr [⟨"float32", [3, 1], [1, 2, 3]⟩] 0 :=
  (runWindowsStore_frame 2 [("x", 0)] fixMin (planWindows 3 2)
    [⟨"float32", [3, 1], [1, 2, 3]⟩]
    [⟨"float32", [3, 1], [1, 2, 3]⟩, ⟨"float32", [2, 1], [1, 2]⟩,
      ⟨"float32", [2, 1], [1, 2]⟩, ⟨"float32", [2, 1], [3, 3]⟩,
      ⟨"float32", [2, 1], [3, 3]⟩]
    [[2], [4]] (by decide)).1 0 (by decide)

end TritonWrapper
